import Mathlib
/-!
Verification of the `/etc/fstab` mapper (`falafel/mappers/fstab.py`).

Strings are embedded as `List Char`; Python dictionaries as association
lists with insert-in-place-or-append update (`dset`), matching Python
`dict` semantics (assignment keeps an existing key's position, appends a
new key; lookup is by key only).  Python exceptions are embedded as the
`Except` monad with a typed error value.

The helpers `parse_table`, `optlist_to_dict` and `get_active_lines` live
outside the sources at hand; they are modelled from the specification
(sections 2, 4.1 and 4.2) and each carries a doc comment saying so.
-/
deriving instance DecidableEq for Except
namespace Fstab
abbrev Str : Type := List Char
abbrev Dict (α : Type) : Type := List (Str × α)
/-- Python dictionary lookup: first (and by construction only) binding of `k`. -/
def dget {α : Type} (d : Dict α) (k : Str) : Option α :=
  match d with
  | [] => none
  | (k', v) :: rest => if k' = k then some v else dget rest k
/-- Python dictionary assignment `d[k] = v`: replace the binding in place if
`k` is present, append it otherwise. -/
def dset {α : Type} (d : Dict α) (k : Str) (v : α) : Dict α :=
  match d with
  | [] => [(k, v)]
  | (k', v') :: rest => if k' = k then (k', v) :: rest else (k', v') :: dset rest k v
/-- A value of a decoded mount-options dictionary: a bare flag maps to a
boolean, a `key=value` token maps the key to the literal string value. -/
inductive OptVal : Type
  | flag (b : Bool)
  | str (s : Str)
  deriving DecidableEq, Repr, Inhabited
abbrev OptDict : Type := Dict OptVal
/-- `MountOpts` object: wraps the decoded options dictionary (its attributes
are exactly the entries of `data`, after the well-known defaults are added). -/
structure MountOpts : Type where
  data : OptDict
  deriving DecidableEq, Repr, Inhabited
/-- A value stored in a parsed fstab line dictionary. -/
inductive Value : Type
  | str (s : Str)
  | int (n : Int)
  | opts (d : OptDict)
  | mopts (m : MountOpts)
  deriving DecidableEq, Repr, Inhabited
/-- `FSTabEntry` object: its attributes (one per column of the parsed line)
are embedded as a dictionary of fields. -/
structure FSTabEntry : Type where
  fields : Dict Value
  deriving DecidableEq, Repr, Inhabited
/-- `FSTab` object after a successful `parse_content`. -/
structure FSTab : Type where
  data : List (Dict Value)
  rows : List FSTabEntry
  mounted_on : Dict FSTabEntry
  deriving DecidableEq, Repr, Inhabited
/-- Typed errors of the parse: the spec's `MalformedHeader` and
`MalformedField` conditions, plus the key-lookup failure (Python `KeyError`)
raised when a line dictionary is indexed at an absent key. -/
inductive ParseErr : Type
  | malformedHeader
  | malformedField
  | keyError
  deriving DecidableEq, Repr, Inhabited
/-- Strip leading and trailing whitespace (Python `str.strip()`). -/
def trim (s : Str) : Str :=
  ((s.dropWhile Char.isWhitespace).reverse.dropWhile Char.isWhitespace).reverse
/-- Python `s.split(sep)` for a one-character separator: splitting the empty
string yields `[[]]`, and separators delimit possibly empty tokens. -/
def splitOnChar (sep : Char) : Str → List Str
  | [] => [[]]
  | c :: rest =>
    match splitOnChar sep rest with
    | [] => [[]]
    | t :: ts => if c = sep then [] :: t :: ts else (c :: t) :: ts
/-- Split a string at the first occurrence of `sep`: returns the prefix
before it and, when `sep` occurs, the remainder after it. -/
def breakOnChar (sep : Char) : Str → Str × Option Str
  | [] => ([], none)
  | c :: rest =>
    if c = sep then ([], some rest)
    else
      let p := breakOnChar sep rest
      (c :: p.1, p.2)
/-- Join tokens with a one-character separator. -/
def joinSep (sep : Char) : List Str → Str
  | [] => []
  | [t] => t
  | t :: ts => t ++ sep :: joinSep sep ts
/-- Numeric value of a string of decimal digits. -/
def digitsVal (ds : Str) : Nat :=
  ds.foldl (fun n c => 10 * n + (c.toNat - 48)) 0
/-- Python 2 `int(s)` on a string: surrounding whitespace is ignored, an
optional single sign precedes a nonempty run of decimal digits; anything
else raises `ValueError` (here: `none`). -/
def parsePyInt (s : Str) : Option Int :=
  match trim s with
  | '-' :: ds =>
    if !ds.isEmpty && ds.all Char.isDigit then some (-(digitsVal ds : Int)) else none
  | '+' :: ds =>
    if !ds.isEmpty && ds.all Char.isDigit then some ((digitsVal ds : Int)) else none
  | ds =>
    if !ds.isEmpty && ds.all Char.isDigit then some ((digitsVal ds : Int)) else none
/-- The per-token rule of the Option-List Decoder: the token is stripped of
surrounding whitespace; with `=` it is split on the first `=` into key and
literal string value, without `=` it maps to boolean `true`. -/
def optTokenStep (d : OptDict) (tok : Str) : OptDict :=
  match breakOnChar '=' (trim tok) with
  | (k, some v) => dset d k (OptVal.str v)
  | (k, none) => dset d k (OptVal.flag true)
/-- Modelled from the spec: the Option-List Decoder `optlist_to_dict`
(section 4.1), absent from the sources at hand.  The input is split
strictly on `,`; each token follows the per-token rule; the empty input
produces the empty dictionary; a repeated key keeps the last occurrence's
value. -/
def optlist_to_dict (s : Str) : OptDict :=
  if s = [] then []
  else (splitOnChar ',' s).foldl optTokenStep []
/-- Tokenizer for the header line: walks the characters keeping the current
position and the (reversed) token under construction with its start offset. -/
def headerColsAux (pos : Nat) (cur : Option (Str × Nat)) : Str → List (Str × Nat)
  | [] =>
    match cur with
    | some (t, o) => [(t.reverse, o)]
    | none => []
  | c :: rest =>
    if c.isWhitespace then
      match cur with
      | some (t, o) => (t.reverse, o) :: headerColsAux (pos + 1) none rest
      | none => headerColsAux (pos + 1) none rest
    else
      match cur with
      | some (t, o) => headerColsAux (pos + 1) (some (c :: t, o)) rest
      | none => headerColsAux (pos + 1) (some ([c], pos)) rest
/-- Modelled from the spec: the Heading Spec derivation of the Positional
Table Parser (section 4.2, step 1) — tokenize the header line on runs of
whitespace, recording each token's starting character offset. -/
def headerCols (h : Str) : List (Str × Nat) :=
  headerColsAux 0 none h
/-- Substring of `l` from index `a` up to (but not including) index `b`. -/
def extract (l : Str) (a b : Nat) : Str :=
  (l.drop a).take (b - a)
/-- Modelled from the spec: one data line split by the Heading Spec
(section 4.2, steps 2-3).  Each column except the last takes the substring
from its offset up to the next column's offset, the last column takes the
rest of the line; values are trimmed; a column whose offset is beyond the
line's content is omitted from the Raw Row entirely. -/
def parseRow (cols : List (Str × Nat)) (line : Str) : Dict Str :=
  match cols with
  | [] => []
  | (name, off) :: rest =>
    let stop :=
      match rest with
      | [] => line.length
      | (_, off2) :: _ => off2
    if off < line.length then
      (name, trim (extract line off stop)) :: parseRow rest line
    else
      parseRow rest line
/-- Modelled from the spec: the Positional Table Parser `parse_table`
(section 4.2).  The first line is the header; a header producing zero
columns is the `MalformedHeader` condition; every data line yields exactly
one Raw Row. -/
def parse_table (lines : List Str) : Except ParseErr (List (Dict Str)) :=
  match lines with
  | [] => Except.error ParseErr.malformedHeader
  | h :: ds =>
    let cols := headerCols h
    if cols = [] then Except.error ParseErr.malformedHeader
    else Except.ok (ds.map (parseRow cols))
/-- A line is kept by the Line Filter when it is non-blank and not a
full-line comment. -/
def isActive (l : Str) : Bool :=
  match l with
  | [] => false
  | c :: _ => decide (c ≠ '#')
/-- Modelled from the spec: the Line Filter `get_active_lines` (section 2)
— strips blank lines and full-line comments, trimming each kept line. -/
def get_active_lines (lines : List Str) : List Str :=
  (lines.map trim).filter isActive
/-- The synthetic header injected by `FSTab.parse_content`. -/
def FS_HEADINGS : Str :=
  "fs_spec                               fs_file                 fs_vfstype fs_mntops    fs_freq fs_passno".toList
/-- Column name `fs_spec`. -/
def fsSpecK : Str := "fs_spec".toList
/-- Column name `fs_file`. -/
def fsFileK : Str := "fs_file".toList
/-- Column name `fs_vfstype`. -/
def fsVfstypeK : Str := "fs_vfstype".toList
/-- Column name `fs_mntops`. -/
def fsMntopsK : Str := "fs_mntops".toList
/-- Column name `fs_freq`. -/
def fsFreqK : Str := "fs_freq".toList
/-- Column name `fs_passno`. -/
def fsPassnoK : Str := "fs_passno".toList
/-- The Heading Spec of the fstab table, derived from `FS_HEADINGS`. -/
def fsCols : List (Str × Nat) := headerCols FS_HEADINGS
/-- The keys of `MountOpts.type_infos`: the ten well-known mount flags,
each with default `False`. -/
def wellKnownFlags : List Str :=
  ["rw".toList, "rq".toList, "ro".toList, "sw".toList, "xx".toList,
   "relatime".toList, "seclabel".toList, "attr2".toList, "inode64".toList,
   "noquota".toList]
/-- `MountOpts.__init__`'s effect on the dictionary it is given: every
well-known flag absent from the dictionary is added with value `False`
(the mutation is performed in place on the argument dictionary). -/
def mountOptsInit (d : OptDict) : OptDict :=
  wellKnownFlags.foldl
    (fun d k => if (dget d k).isSome then d else dset d k (OptVal.flag false)) d
/-- One integer-column conversion of the normalization loop:
`line[k] = int(line[k]) if k in line else 0` — the value becomes an
integer, `0` when the key is absent, `ValueError` alias `MalformedField`
when present but non-numeric.  The non-string `some` branch is
unreachable: when this step runs, the value at `k` is a string. -/
def intStep (d : Dict Value) (k : Str) : Except ParseErr (Dict Value) :=
  match dget d k with
  | some (Value.str s) =>
    match parsePyInt s with
    | some n => Except.ok (dset d k (Value.int n))
    | none => Except.error ParseErr.malformedField
  | some _ => Except.error ParseErr.malformedField
  | none => Except.ok (dset d k (Value.int 0))
/-- Conversion of the `fs_mntops` value: an unguarded dictionary access
followed by `optlist_to_dict`, so an absent key is a `KeyError`. -/
def mntopsStep (d : Dict Value) : Except ParseErr (Dict Value) :=
  match dget d fsMntopsK with
  | some (Value.str s) => Except.ok (dset d fsMntopsK (Value.opts (optlist_to_dict s)))
  | some _ => Except.error ParseErr.keyError
  | none => Except.error ParseErr.keyError
/-- A Raw Row as a dictionary of `Value`s (every value still a string). -/
def strDict (r : Dict Str) : Dict Value :=
  r.map (fun p => (p.1, Value.str p.2))
/-- The body of the `for line in fstab_output` loop of `FSTab.parse_content`
applied to one Raw Row: convert `fs_freq`, then `fs_passno`, then replace
`fs_mntops` by the decoded options dictionary. -/
def normalizeLine (r : Dict Str) : Except ParseErr (Dict Value) :=
  match intStep (strDict r) fsFreqK with
  | Except.error e => Except.error e
  | Except.ok d1 =>
    match intStep d1 fsPassnoK with
    | Except.error e => Except.error e
    | Except.ok d2 => mntopsStep d2
/-- The in-place mutation performed by `MountOpts.__init__` on the options
dictionary stored inside a line dictionary of `data`: after the rows are
built, the `fs_mntops` entry of each line dictionary has the well-known
defaults added. -/
def augmentLine (d : Dict Value) : Dict Value :=
  match dget d fsMntopsK with
  | some (Value.opts od) => dset d fsMntopsK (Value.opts (mountOptsInit od))
  | _ => d
/-- `FSTabEntry.__init__`: every key of the line dictionary becomes an
attribute; the `fs_mntops` value is wrapped in a `MountOpts` object. -/
def FSTabEntry.ofDict (d : Dict Value) : FSTabEntry :=
  ⟨d.map (fun p =>
    (p.1,
      if p.1 = fsMntopsK then
        match p.2 with
        | Value.opts od => Value.mopts ⟨od⟩
        | v => v
      else p.2))⟩
/-- Attribute access `row.fs_file` (always a string on a successfully
parsed row). -/
def FSTabEntry.fs_file (e : FSTabEntry) : Str :=
  match dget e.fields fsFileK with
  | some (Value.str s) => s
  | _ => []
/-- The decoded-and-defaulted options dictionary of a row, i.e.
`row.fs_mntops.data`. -/
def FSTabEntry.mntopsData (e : FSTabEntry) : Option OptDict :=
  match dget e.fields fsMntopsK with
  | some (Value.mopts m) => some m.data
  | _ => none
/-- The integer attribute `row.fs_freq` / `row.fs_passno` (by key). -/
def FSTabEntry.intField (e : FSTabEntry) (k : Str) : Option Int :=
  match dget e.fields k with
  | some (Value.int n) => some n
  | _ => none
/-- The dictionary comprehension `{row.fs_file: row for row in self.rows}`:
sequential insertion, a later row with the same mount point overwrites the
earlier entry. -/
def mkMountedOn (rows : List FSTabEntry) : Dict FSTabEntry :=
  rows.foldl (fun m e => dset m e.fs_file e) []
/-- Run a fallible function over a list in order, aborting at the first
error — the embedding of the normalization `for` loop. -/
def mapExcept {α β : Type} (f : α → Except ParseErr β) : List α → Except ParseErr (List β)
  | [] => Except.ok []
  | a :: as =>
    match f a with
    | Except.error e => Except.error e
    | Except.ok b =>
      match mapExcept f as with
      | Except.error e => Except.error e
      | Except.ok bs => Except.ok (b :: bs)
/-- `FSTab.parse_content`: prepend the synthetic header, split the active
lines positionally, normalize each line (integers, options decoding), then
expose `data`, `rows` and `mounted_on`.  Python builds the rows by mutating
the line dictionaries shared with `data` (the `MountOpts` defaults); the
embedding applies that mutation (`augmentLine`) to the dictionaries before
both views are built, so both hold the same augmented dictionaries.  On any
error nothing is exposed: the whole call returns the error. -/
def parse_content (content : List Str) : Except ParseErr FSTab :=
  match parse_table (FS_HEADINGS :: get_active_lines content) with
  | Except.error e => Except.error e
  | Except.ok fstab_output =>
    match mapExcept normalizeLine fstab_output with
    | Except.error e => Except.error e
    | Except.ok normed =>
      let dataF := normed.map augmentLine
      let rows := dataF.map FSTabEntry.ofDict
      Except.ok ⟨dataF, rows, mkMountedOn rows⟩
/-- `FSTab.__len__`: the number of rows. -/
def FSTab.len (t : FSTab) : Nat := t.rows.length
/-- Specification-side encoding of one Option Map entry: `key` for a
boolean entry, `key=value` for a string entry. -/
def encodeEntry (p : Str × OptVal) : Str :=
  match p.2 with
  | OptVal.flag _ => p.1
  | OptVal.str v => p.1 ++ '=' :: v
/-- Specification-side encoder for the round-trip property (section 8):
joins the encoded entries with `,`. -/
def encodeOpts (m : OptDict) : Str :=
  joinSep ',' (m.map encodeEntry)
/-- An Option Map entry that survives the encode-decode round trip
unchanged: a nonempty key free of whitespace, `,` and `=`; a boolean entry
must be `true`; a string value must be free of whitespace and `,`. -/
def cleanEntry (p : Str × OptVal) : Bool :=
  (!p.1.isEmpty) &&
  p.1.all (fun c => !c.isWhitespace && c != ',' && c != '=') &&
  (match p.2 with
   | OptVal.flag b => b
   | OptVal.str v => v.all (fun c => !c.isWhitespace && c != ','))
/-- Specification-side description of "the row supplied last whose
`fs_file` equals `k`". -/
def lastMatch (k : Str) : List FSTabEntry → Option FSTabEntry
  | [] => none
  | e :: es =>
    match lastMatch k es with
    | some x => some x
    | none => if e.fs_file = k then some e else none
/-- Extract the success value of an `Except`, with a default. -/
def okOr {α : Type} (x : Except ParseErr α) (d : α) : α :=
  match x with
  | Except.ok v => v
  | Except.error _ => d
/-! ### Concrete tables, rows and inputs used by witnesses and counterexamples -/
/-- A data line aligned to the fstab header but stopping after the options
column (length 81, between the `fs_mntops` offset 73 and the `fs_freq`
offset 86). -/
def lineMid : Str :=
  "/dev/sda1                             /mnt                    xfs        defaults".toList
/-- A data line too short (19 characters) to reach the options column. -/
def lineShort : Str := "/dev/sda1 /mnt ext4".toList
/-- The Normalized Row of `lineMid`. -/
def dMid : Dict Value := okOr (normalizeLine (parseRow fsCols lineMid)) []
/-- A Raw Row with only an options column, and one that also carries a
numeric `fs_freq`. -/
def rFreqAbsent : Dict Str := [(fsMntopsK, "defaults".toList)]
/-- A Raw Row with options column and `fs_freq` present as "2". -/
def rFreqPresent : Dict Str := [(fsMntopsK, "defaults".toList), (fsFreqK, "2".toList)]
/-- Normalized Rows of the two witness Raw Rows. -/
def dFreqAbsent : Dict Value := okOr (normalizeLine rFreqAbsent) []
/-- Normalized Row of `rFreqPresent`. -/
def dFreqPresent : Dict Value := okOr (normalizeLine rFreqPresent) []
/-- A header-aligned data line whose `fs_freq` column holds the
non-numeric value "x". -/
def lineBadFreq : Str :=
  "/dev/sdc1                             /bad                    xfs        defaults     x       0".toList
/-- A Raw Row whose `fs_freq` value is non-numeric. -/
def rBadFreq : Dict Str := [(fsFreqK, "x".toList)]
/-- A fully header-aligned data line mounted on `/mnt`. -/
def lineFull1 : Str :=
  "/dev/sda1                             /mnt                    xfs        rw,relatime  0       0".toList
/-- A fully header-aligned data line mounted on `/data`. -/
def lineFull2 : Str :=
  "/dev/sdb1                             /data                   xfs        defaults     0       0".toList
/-- A second header-aligned data line also mounted on `/data`. -/
def lineDup : Str :=
  "/dev/sdd1                             /data                   ext4       ro           0       0".toList
/-- The table parsed from the two full lines. -/
def contentPair : List Str := [lineFull1, lineFull2]
/-- The parsed table of `contentPair`. -/
def tPair : FSTab := okOr (parse_content contentPair) default
/-- The table parsed from two rows sharing the mount point `/data`. -/
def tDup : FSTab := okOr (parse_content [lineFull2, lineDup]) default
/-- The last row of `tDup` whose mount point is `/data`. -/
def eDup : FSTabEntry := (lastMatch ("/data".toList) tDup.rows).getD default
/-- A header-aligned data line whose options string contains the
well-known flag `rw` in `key=value` form. -/
def lineRwEq : Str :=
  "/dev/sde1                             /rv                     xfs        rw=1         0       0".toList
/-- The table parsed from `lineRwEq`. -/
def tRwEq : FSTab := okOr (parse_content [lineRwEq]) default
/-- The decoded-and-defaulted option dictionary of the first row of
`tRwEq`. -/
def mRwEq : OptDict := (tRwEq.rows.headD default).mntopsData.getD []
/-- The table parsed from `lineFull1` and its first row. -/
def tFull1 : FSTab := okOr (parse_content [lineFull1]) default
/-- First row of `tFull1`. -/
def eFull1 : FSTabEntry := tFull1.rows.headD default
/-- The first data-row pair of `tFull1`. -/
def pFull1 : Dict Value × FSTabEntry := (tFull1.data.zip tFull1.rows).headD ([], default)
/-! ### Dictionary lemmas -/
theorem dget_nil {α : Type} (k : Str) : dget ([] : Dict α) k = none := rfl
theorem dget_cons {α : Type} (k' k : Str) (v : α) (d : Dict α) :
    dget ((k', v) :: d) k = if k' = k then some v else dget d k := rfl
theorem dget_cons_eq {α : Type} {k' k : Str} (v : α) (d : Dict α) (h : k' = k) :
    dget ((k', v) :: d) k = some v := by
  rw [dget_cons, if_pos h]
theorem dget_cons_ne {α : Type} {k' k : Str} (v : α) (d : Dict α) (h : k' ≠ k) :
    dget ((k', v) :: d) k = dget d k := by
  rw [dget_cons, if_neg h]
theorem dget_dset_self {α : Type} (d : Dict α) (k : Str) (v : α) :
    dget (dset d k v) k = some v := by
  induction d with
  | nil => simp [dset, dget]
  | cons p rest ih =>
    obtain ⟨k', v'⟩ := p
    by_cases h : k' = k
    · simp [dset, dget, h]
    · simp [dset, dget, h, ih]
theorem dget_dset_ne {α : Type} (d : Dict α) {k' k : Str} (v : α) (h : k' ≠ k) :
    dget (dset d k' v) k = dget d k := by
  induction d with
  | nil => simp [dset, dget, h]
  | cons p rest ih =>
    obtain ⟨k'', v''⟩ := p
    by_cases h2 : k'' = k'
    · subst h2
      simp [dset, dget, h]
    · simp [dset, dget, h2, ih]
theorem dget_map_entry {α β : Type} (f : Str → α → β) (d : Dict α) (k : Str) :
    dget (d.map (fun p => (p.1, f p.1 p.2))) k = (dget d k).map (f k) := by
  induction d with
  | nil => simp [dget]
  | cons p rest ih =>
    obtain ⟨k', v⟩ := p
    by_cases h : k' = k
    · subst h
      simp [dget]
    · simp [dget, h, ih]
/-! ### `mapExcept` lemmas -/
theorem mapExcept_cons_ok {α β : Type} (f : α → Except ParseErr β) (a : α) (as : List α)
    (b : β) (bs : List β) (hf : f a = Except.ok b) (hm : mapExcept f as = Except.ok bs) :
    mapExcept f (a :: as) = Except.ok (b :: bs) := by
  simp [mapExcept, hf, hm]
theorem mapExcept_cons_inv {α β : Type} (f : α → Except ParseErr β) (a : α) (as : List α)
    (l' : List β) (h : mapExcept f (a :: as) = Except.ok l') :
    ∃ b bs, f a = Except.ok b ∧ mapExcept f as = Except.ok bs ∧ l' = b :: bs := by
  cases hf : f a with
  | error e => simp [mapExcept, hf] at h
  | ok b =>
    cases hm : mapExcept f as with
    | error e => simp [mapExcept, hf, hm] at h
    | ok bs =>
      simp [mapExcept, hf, hm] at h
      exact ⟨b, bs, rfl, rfl, h.symm⟩
theorem mapExcept_ok_length {α β : Type} (f : α → Except ParseErr β) :
    ∀ (l : List α) (l' : List β), mapExcept f l = Except.ok l' → l'.length = l.length := by
  intro l
  induction l with
  | nil =>
    intro l' h
    simp [mapExcept] at h
    simp [← h]
  | cons a as ih =>
    intro l' h
    obtain ⟨b, bs, _, hm, rfl⟩ := mapExcept_cons_inv f a as l' h
    simp [ih bs hm]
theorem mapExcept_ok_mem {α β : Type} (f : α → Except ParseErr β) :
    ∀ (l : List α) (l' : List β), mapExcept f l = Except.ok l' →
      ∀ b ∈ l', ∃ a ∈ l, f a = Except.ok b := by
  intro l
  induction l with
  | nil =>
    intro l' h b hb
    simp [mapExcept] at h
    subst h
    simp at hb
  | cons a as ih =>
    intro l' h b hb
    obtain ⟨b0, bs, hf, hm, rfl⟩ := mapExcept_cons_inv f a as l' h
    rcases List.mem_cons.mp hb with hb | hb
    · exact ⟨a, by simp, by rw [hf, hb]⟩
    · obtain ⟨a', ha', hfa'⟩ := ih bs hm b hb
      exact ⟨a', by simp [ha'], hfa'⟩
theorem mapExcept_error_of_mem {α β : Type} (f : α → Except ParseErr β) :
    ∀ (l : List α) (a : α) (e : ParseErr), a ∈ l → f a = Except.error e →
      ∃ e', mapExcept f l = Except.error e' := by
  intro l
  induction l with
  | nil => intro a e ha; simp at ha
  | cons a0 as ih =>
    intro a e ha hfa
    rcases List.mem_cons.mp ha with h | h
    · subst h
      exact ⟨e, by simp [mapExcept, hfa]⟩
    · cases hf : f a0 with
      | error e0 => exact ⟨e0, by simp [mapExcept, hf]⟩
      | ok b0 =>
        obtain ⟨e', he'⟩ := ih a e h hfa
        exact ⟨e', by simp [mapExcept, hf, he']⟩
theorem mapExcept_ok_get {α β : Type} (f : α → Except ParseErr β) :
    ∀ (l : List α) (l' : List β), mapExcept f l = Except.ok l' →
      ∀ (i : Nat) (h : i < l.length) (h' : i < l'.length),
        f (l.get ⟨i, h⟩) = Except.ok (l'.get ⟨i, h'⟩) := by
  intro l
  induction l with
  | nil => intro l' h i hi; simp at hi
  | cons a as ih =>
    intro l' h i hi hi'
    obtain ⟨b, bs, hf, hm, rfl⟩ := mapExcept_cons_inv f a as l' h
    cases i with
    | zero => simpa using hf
    | succ j =>
      simp only [List.get]
      exact ih bs hm j (Nat.lt_of_succ_lt_succ hi) (Nat.lt_of_succ_lt_succ hi')
/-! ### Parse structure lemmas -/
theorem fsCols_eq :
    fsCols = [(fsSpecK, 0), (fsFileK, 38), (fsVfstypeK, 62), (fsMntopsK, 73),
      (fsFreqK, 86), (fsPassnoK, 94)] := by decide
theorem parse_table_fstab (ds : List Str) :
    parse_table (FS_HEADINGS :: ds) = Except.ok (ds.map (parseRow fsCols)) := by
  have h : ¬ (headerCols FS_HEADINGS = []) := by decide
  simp only [parse_table]
  rw [if_neg h]
  rfl
theorem dget_parseRow_none (cols : List (Str × Nat)) (line : Str) (k : Str)
    (h : ∀ off, (k, off) ∈ cols → line.length ≤ off) :
    dget (parseRow cols line) k = none := by
  induction cols with
  | nil => rfl
  | cons p rest ih =>
    obtain ⟨name, off⟩ := p
    have ihrest : dget (parseRow rest line) k = none := by
      apply ih
      intro o ho
      exact h o (List.mem_cons_of_mem _ ho)
    by_cases hoff : off < line.length
    · have hne : name ≠ k := by
        intro he
        subst he
        exact absurd hoff (Nat.not_lt.mpr (h off (List.mem_cons_self _ _)))
      simp only [parseRow, if_pos hoff]
      rw [dget_cons_ne _ _ hne]
      exact ihrest
    · simp only [parseRow, if_neg hoff]
      exact ihrest
theorem parse_content_ok_inv (content : List Str) (t : FSTab)
    (h : parse_content content = Except.ok t) :
    ∃ normed,
      mapExcept normalizeLine ((get_active_lines content).map (parseRow fsCols)) =
        Except.ok normed ∧
      t.data = normed.map augmentLine ∧
      t.rows = t.data.map FSTabEntry.ofDict ∧
      t.mounted_on = mkMountedOn t.rows := by
  cases hm : mapExcept normalizeLine ((get_active_lines content).map (parseRow fsCols)) with
  | error e =>
    simp only [parse_content, parse_table_fstab, hm] at h
    exact absurd h (by simp)
  | ok normed =>
    simp only [parse_content, parse_table_fstab, hm, Except.ok.injEq] at h
    subst h
    exact ⟨normed, rfl, rfl, rfl, rfl⟩
/-! ### Normalization lemmas -/
theorem dget_strDict (r : Dict Str) (k : Str) :
    dget (strDict r) k = (dget r k).map Value.str := by
  simpa using dget_map_entry (fun _ v => Value.str v) r k
theorem key_ne_freq_passno : fsFreqK ≠ fsPassnoK := by decide
theorem key_ne_freq_mntops : fsFreqK ≠ fsMntopsK := by decide
theorem key_ne_passno_mntops : fsPassnoK ≠ fsMntopsK := by decide
theorem intStep_absent (d : Dict Value) (k : Str) (h : dget d k = none) :
    intStep d k = Except.ok (dset d k (Value.int 0)) := by
  simp [intStep, h]
theorem intStep_present (d : Dict Value) (k : Str) (s : Str) (n : Int)
    (h : dget d k = some (Value.str s)) (hp : parsePyInt s = some n) :
    intStep d k = Except.ok (dset d k (Value.int n)) := by
  simp [intStep, h, hp]
theorem intStep_bad (d : Dict Value) (k : Str) (s : Str)
    (h : dget d k = some (Value.str s)) (hp : parsePyInt s = none) :
    intStep d k = Except.error ParseErr.malformedField := by
  simp [intStep, h, hp]
theorem intStep_ok_inv (d d' : Dict Value) (k : Str) (h : intStep d k = Except.ok d') :
    (dget d k = none ∧ d' = dset d k (Value.int 0)) ∨
    (∃ s n, dget d k = some (Value.str s) ∧ parsePyInt s = some n ∧
      d' = dset d k (Value.int n)) := by
  cases hd : dget d k with
  | none =>
    simp [intStep, hd, Except.ok.injEq] at h
    exact Or.inl ⟨rfl, h.symm⟩
  | some v =>
    cases v with
    | str s =>
      cases hp : parsePyInt s with
      | none => simp [intStep, hd, hp] at h
      | some n =>
        simp [intStep, hd, hp, Except.ok.injEq] at h
        exact Or.inr ⟨s, n, rfl, hp, h.symm⟩
    | int n => simp [intStep, hd] at h
    | opts od => simp [intStep, hd] at h
    | mopts m => simp [intStep, hd] at h
theorem mntopsStep_str (d : Dict Value) (s : Str)
    (h : dget d fsMntopsK = some (Value.str s)) :
    mntopsStep d = Except.ok (dset d fsMntopsK (Value.opts (optlist_to_dict s))) := by
  simp [mntopsStep, h]
theorem mntopsStep_none (d : Dict Value) (h : dget d fsMntopsK = none) :
    mntopsStep d = Except.error ParseErr.keyError := by
  simp [mntopsStep, h]
theorem mntopsStep_ok_inv (d d' : Dict Value) (h : mntopsStep d = Except.ok d') :
    ∃ s, dget d fsMntopsK = some (Value.str s) ∧
      d' = dset d fsMntopsK (Value.opts (optlist_to_dict s)) := by
  cases hd : dget d fsMntopsK with
  | none => simp [mntopsStep, hd] at h
  | some v =>
    cases v with
    | str s =>
      simp [mntopsStep, hd, Except.ok.injEq] at h
      exact ⟨s, rfl, h.symm⟩
    | int n => simp [mntopsStep, hd] at h
    | opts od => simp [mntopsStep, hd] at h
    | mopts m => simp [mntopsStep, hd] at h
theorem normalizeLine_ok_inv (r : Dict Str) (d : Dict Value)
    (h : normalizeLine r = Except.ok d) :
    ∃ d1 d2, intStep (strDict r) fsFreqK = Except.ok d1 ∧
      intStep d1 fsPassnoK = Except.ok d2 ∧ mntopsStep d2 = Except.ok d := by
  cases h1 : intStep (strDict r) fsFreqK with
  | error e => simp [normalizeLine, h1] at h
  | ok d1 =>
    cases h2 : intStep d1 fsPassnoK with
    | error e => simp [normalizeLine, h1, h2] at h
    | ok d2 =>
      simp [normalizeLine, h1, h2] at h
      exact ⟨d1, d2, rfl, h2, h⟩
/-- Forward evaluation of `normalizeLine` when the two integer columns are
absent and the options column is present. -/
theorem normalizeLine_forward (r : Dict Str) (s : Str)
    (hf : dget r fsFreqK = none) (hp : dget r fsPassnoK = none)
    (hm : dget r fsMntopsK = some s) :
    normalizeLine r =
      Except.ok (dset (dset (dset (strDict r) fsFreqK (Value.int 0)) fsPassnoK
        (Value.int 0)) fsMntopsK (Value.opts (optlist_to_dict s))) := by
  have h1 : intStep (strDict r) fsFreqK = Except.ok (dset (strDict r) fsFreqK (Value.int 0)) := by
    apply intStep_absent
    rw [dget_strDict, hf]
    rfl
  have h2 : intStep (dset (strDict r) fsFreqK (Value.int 0)) fsPassnoK =
      Except.ok (dset (dset (strDict r) fsFreqK (Value.int 0)) fsPassnoK (Value.int 0)) := by
    apply intStep_absent
    rw [dget_dset_ne _ _ key_ne_freq_passno, dget_strDict, hp]
    rfl
  have h3 : dget (dset (dset (strDict r) fsFreqK (Value.int 0)) fsPassnoK (Value.int 0))
      fsMntopsK = some (Value.str s) := by
    rw [dget_dset_ne _ _ key_ne_passno_mntops, dget_dset_ne _ _ key_ne_freq_mntops,
      dget_strDict, hm]
    rfl
  simp only [normalizeLine, h1, h2]
  exact mntopsStep_str _ s h3
/-- `normalizeLine` fails with a `KeyError` when the options column is
absent from the Raw Row and the integer columns are absent too. -/
theorem normalizeLine_keyError (r : Dict Str)
    (hf : dget r fsFreqK = none) (hp : dget r fsPassnoK = none)
    (hm : dget r fsMntopsK = none) :
    normalizeLine r = Except.error ParseErr.keyError := by
  have h1 : intStep (strDict r) fsFreqK = Except.ok (dset (strDict r) fsFreqK (Value.int 0)) := by
    apply intStep_absent
    rw [dget_strDict, hf]
    rfl
  have h2 : intStep (dset (strDict r) fsFreqK (Value.int 0)) fsPassnoK =
      Except.ok (dset (dset (strDict r) fsFreqK (Value.int 0)) fsPassnoK (Value.int 0)) := by
    apply intStep_absent
    rw [dget_dset_ne _ _ key_ne_freq_passno, dget_strDict, hp]
    rfl
  have h3 : dget (dset (dset (strDict r) fsFreqK (Value.int 0)) fsPassnoK (Value.int 0))
      fsMntopsK = none := by
    rw [dget_dset_ne _ _ key_ne_passno_mntops, dget_dset_ne _ _ key_ne_freq_mntops,
      dget_strDict, hm]
    rfl
  simp only [normalizeLine, h1, h2]
  exact mntopsStep_none _ h3
/-! ### Well-known-flag default lemmas -/
theorem dget_flagStep_preserve (d : OptDict) (k' k : Str) (v : OptVal)
    (h : dget d k = some v) :
    dget (if (dget d k').isSome then d else dset d k' (OptVal.flag false)) k = some v := by
  by_cases hk : k' = k
  · subst hk
    rw [if_pos (by rw [h]; rfl)]
    exact h
  · by_cases hs : (dget d k').isSome
    · rw [if_pos hs]; exact h
    · rw [if_neg hs, dget_dset_ne _ _ hk]; exact h
theorem dget_foldl_flags_preserve (ks : List Str) (d : OptDict) (k : Str) (v : OptVal)
    (h : dget d k = some v) :
    dget (ks.foldl
      (fun d k => if (dget d k).isSome then d else dset d k (OptVal.flag false)) d) k
      = some v := by
  induction ks generalizing d with
  | nil => exact h
  | cons k' ks ih =>
    simp only [List.foldl_cons]
    exact ih _ (dget_flagStep_preserve d k' k v h)
theorem dget_foldl_flags_mem (ks : List Str) (d : OptDict) (k : Str) (hm : k ∈ ks) :
    dget (ks.foldl
      (fun d k => if (dget d k).isSome then d else dset d k (OptVal.flag false)) d) k
      = some ((dget d k).getD (OptVal.flag false)) := by
  induction ks generalizing d with
  | nil => simp at hm
  | cons k' ks ih =>
    simp only [List.foldl_cons]
    by_cases hk : k' = k
    · rw [hk]
      cases hd : dget d k with
      | none =>
        rw [if_neg (by simp)]
        have hset : dget (dset d k (OptVal.flag false)) k = some (OptVal.flag false) :=
          dget_dset_self d k _
        rw [dget_foldl_flags_preserve ks _ k _ hset]
        rfl
      | some v =>
        rw [if_pos (show (some v).isSome = true from rfl)]
        rw [dget_foldl_flags_preserve ks _ k _ hd]
        rfl
    · have hm' : k ∈ ks := by
        rcases List.mem_cons.mp hm with h | h
        · exact absurd h.symm hk
        · exact h
      by_cases hs : (dget d k').isSome
      · rw [if_pos hs]
        exact ih _ hm'
      · rw [if_neg hs]
        rw [ih _ hm', dget_dset_ne _ _ hk]
theorem dget_mountOptsInit_preserve (d : OptDict) (k : Str) (v : OptVal)
    (h : dget d k = some v) : dget (mountOptsInit d) k = some v :=
  dget_foldl_flags_preserve wellKnownFlags d k v h
theorem dget_mountOptsInit_flag (d : OptDict) (k : Str) (hm : k ∈ wellKnownFlags) :
    dget (mountOptsInit d) k = some ((dget d k).getD (OptVal.flag false)) :=
  dget_foldl_flags_mem wellKnownFlags d k hm
/-! ### `parseRow` on the fstab columns -/
theorem fsCols_key_off (k : Str) (off : Nat) (hm : (k, off) ∈ fsCols) :
    (k = fsSpecK ∧ off = 0) ∨ (k = fsFileK ∧ off = 38) ∨ (k = fsVfstypeK ∧ off = 62) ∨
    (k = fsMntopsK ∧ off = 73) ∨ (k = fsFreqK ∧ off = 86) ∨ (k = fsPassnoK ∧ off = 94) := by
  rw [fsCols_eq] at hm
  simp only [List.mem_cons, List.not_mem_nil, or_false, Prod.mk.injEq] at hm
  exact hm
theorem dget_parseRow_freq_none (line : Str) (h : line.length ≤ 86) :
    dget (parseRow fsCols line) fsFreqK = none := by
  apply dget_parseRow_none
  intro off hm
  rcases fsCols_key_off _ _ hm with ⟨hk, _⟩ | ⟨hk, _⟩ | ⟨hk, _⟩ | ⟨hk, _⟩ | ⟨_, ho⟩ | ⟨_, ho⟩
  · exact absurd hk (by decide)
  · exact absurd hk (by decide)
  · exact absurd hk (by decide)
  · exact absurd hk (by decide)
  · omega
  · omega
theorem dget_parseRow_passno_none (line : Str) (h : line.length ≤ 94) :
    dget (parseRow fsCols line) fsPassnoK = none := by
  apply dget_parseRow_none
  intro off hm
  rcases fsCols_key_off _ _ hm with ⟨hk, _⟩ | ⟨hk, _⟩ | ⟨hk, _⟩ | ⟨hk, _⟩ | ⟨hk, _⟩ | ⟨_, ho⟩
  · exact absurd hk (by decide)
  · exact absurd hk (by decide)
  · exact absurd hk (by decide)
  · exact absurd hk (by decide)
  · exact absurd hk (by decide)
  · omega
theorem dget_parseRow_mntops_none (line : Str) (h : line.length ≤ 73) :
    dget (parseRow fsCols line) fsMntopsK = none := by
  apply dget_parseRow_none
  intro off hm
  rcases fsCols_key_off _ _ hm with ⟨hk, _⟩ | ⟨hk, _⟩ | ⟨hk, _⟩ | ⟨_, ho⟩ | ⟨_, ho⟩ | ⟨_, ho⟩
  · exact absurd hk (by decide)
  · exact absurd hk (by decide)
  · exact absurd hk (by decide)
  · omega
  · omega
  · omega
theorem parseRow_fstab_mid (line : Str) (h1 : 73 < line.length) (h2 : line.length <= 86) :
    parseRow fsCols line =
      [(fsSpecK, trim (extract line 0 38)), (fsFileK, trim (extract line 38 62)),
       (fsVfstypeK, trim (extract line 62 73)), (fsMntopsK, trim (extract line 73 86))] := by
  rw [fsCols_eq]
  have l0 : 0 < line.length := by omega
  have l38 : 38 < line.length := by omega
  have l62 : 62 < line.length := by omega
  have l86 : ¬ (86 < line.length) := by omega
  have l94 : ¬ (94 < line.length) := by omega
  simp only [parseRow, if_pos l0, if_pos l38, if_pos l62, if_pos h1, if_neg l86, if_neg l94]
/-! ### Single-line parse lemmas -/
theorem get_active_single (line : Str) (htrim : trim line = line)
    (hact : isActive line = true) : get_active_lines [line] = [line] := by
  simp [get_active_lines, htrim, hact]
theorem mapExcept_singleton_ok {α β : Type} (f : α → Except ParseErr β) (a : α) (b : β)
    (h : f a = Except.ok b) : mapExcept f [a] = Except.ok [b] := by
  simp [mapExcept, h]
theorem mapExcept_singleton_error {α β : Type} (f : α → Except ParseErr β) (a : α)
    (e : ParseErr) (h : f a = Except.error e) : mapExcept f [a] = Except.error e := by
  simp [mapExcept, h]
theorem parse_content_single_ok (line : Str) (d : Dict Value) (htrim : trim line = line)
    (hact : isActive line = true)
    (hnorm : normalizeLine (parseRow fsCols line) = Except.ok d) :
    parse_content [line] =
      Except.ok ⟨[augmentLine d], [FSTabEntry.ofDict (augmentLine d)],
        mkMountedOn [FSTabEntry.ofDict (augmentLine d)]⟩ := by
  have hga : get_active_lines [line] = [line] := get_active_single line htrim hact
  have hmap : mapExcept normalizeLine [parseRow fsCols line] = Except.ok [d] :=
    mapExcept_singleton_ok normalizeLine (parseRow fsCols line) d hnorm
  simp [parse_content, hga, parse_table_fstab, hmap]
theorem parse_content_single_error (line : Str) (e : ParseErr) (htrim : trim line = line)
    (hact : isActive line = true)
    (hnorm : normalizeLine (parseRow fsCols line) = Except.error e) :
    parse_content [line] = Except.error e := by
  have hga : get_active_lines [line] = [line] := get_active_single line htrim hact
  have hmap : mapExcept normalizeLine [parseRow fsCols line] = Except.error e :=
    mapExcept_singleton_error normalizeLine (parseRow fsCols line) e hnorm
  simp [parse_content, hga, parse_table_fstab, hmap]
/-! ### Concrete inputs used by witnesses and counterexamples -/
/-! ### Claim C1 -/
/-- C1, counterexample: a data line too short to reach the options column
`fs_mntops` has a Raw Row missing that trailing column, yet the parse
fails (`KeyError`) instead of returning a Normalized Row — refuting "For
every data line whose Raw Row is missing trailing columns (including the
options column fs_mntops ...), the parse does not fail". -/
theorem claim_C1_counterexample :
    dget (parseRow fsCols lineShort) fsMntopsK = none ∧
    dget (parseRow fsCols lineShort) fsFreqK = none ∧
    dget (parseRow fsCols lineShort) fsPassnoK = none ∧
    parse_content [lineShort] = Except.error ParseErr.keyError := by decide
/-- C1 (amended): missing trailing INTEGER columns are silently defaulted —
an active data line long enough to contain the options column but not the
integer columns parses to a Normalized Row with `fs_freq` and `fs_passno`
defaulted to 0; but a data line whose Raw Row is missing the options
column `fs_mntops` makes the whole parse fail with a key-lookup error. -/
theorem claim_C1 (line : Str) (htrim : trim line = line) (hact : isActive line = true) :
    (73 < line.length → line.length ≤ 86 →
      ∃ d, parse_content [line] =
          Except.ok ⟨[augmentLine d], [FSTabEntry.ofDict (augmentLine d)],
            mkMountedOn [FSTabEntry.ofDict (augmentLine d)]⟩ ∧
        normalizeLine (parseRow fsCols line) = Except.ok d ∧
        dget d fsFreqK = some (Value.int 0) ∧ dget d fsPassnoK = some (Value.int 0)) ∧
    (line.length ≤ 73 → parse_content [line] = Except.error ParseErr.keyError) := by
  constructor
  · intro h1 h2
    have hfreq : dget (parseRow fsCols line) fsFreqK = none :=
      dget_parseRow_freq_none line (by omega)
    have hpass : dget (parseRow fsCols line) fsPassnoK = none :=
      dget_parseRow_passno_none line (by omega)
    have hmnt : dget (parseRow fsCols line) fsMntopsK = some (trim (extract line 73 86)) := by
      rw [parseRow_fstab_mid line h1 h2]
      rw [dget_cons_ne _ _ (by decide), dget_cons_ne _ _ (by decide),
        dget_cons_ne _ _ (by decide), dget_cons_eq _ _ rfl]
    have hnorm := normalizeLine_forward (parseRow fsCols line) _ hfreq hpass hmnt
    refine ⟨_, parse_content_single_ok line _ htrim hact hnorm, hnorm, ?_, ?_⟩
    · rw [dget_dset_ne _ _ (by decide : fsMntopsK ≠ fsFreqK),
        dget_dset_ne _ _ (by decide : fsPassnoK ≠ fsFreqK)]
      exact dget_dset_self _ _ _
    · rw [dget_dset_ne _ _ (by decide : fsMntopsK ≠ fsPassnoK)]
      exact dget_dset_self _ _ _
  · intro h
    have hnorm := normalizeLine_keyError (parseRow fsCols line)
      (dget_parseRow_freq_none line (by omega))
      (dget_parseRow_passno_none line (by omega))
      (dget_parseRow_mntops_none line (by omega))
    exact parse_content_single_error line _ htrim hact hnorm
/-- C1, witness: the amended theorem applied to the 81-character line
(options present, integer columns absent) and to the short line. -/
theorem claim_C1_witness :
    parse_content [lineMid] =
      Except.ok ⟨[augmentLine dMid], [FSTabEntry.ofDict (augmentLine dMid)],
        mkMountedOn [FSTabEntry.ofDict (augmentLine dMid)]⟩ ∧
    dget dMid fsFreqK = some (Value.int 0) ∧ dget dMid fsPassnoK = some (Value.int 0) ∧
    parse_content [lineShort] = Except.error ParseErr.keyError := by
  obtain ⟨d, hpc, hnorm, hf, hp⟩ :=
    (claim_C1 lineMid (by decide) (by decide)).1 (by decide) (by decide)
  have hd : dMid = d := by simp [dMid, hnorm, okOr]
  rw [hd]
  exact ⟨hpc, hf, hp, (claim_C1 lineShort (by decide) (by decide)).2 (by decide)⟩
/-! ### Claim C3 -/
theorem dget_strDict_none (r : Dict Str) (k : Str) :
    dget (strDict r) k = none ↔ dget r k = none := by
  rw [dget_strDict]
  cases dget r k <;> simp
theorem dget_strDict_str (r : Dict Str) (k s : Str) :
    dget (strDict r) k = some (Value.str s) ↔ dget r k = some s := by
  rw [dget_strDict]
  cases dget r k <;> simp
/-- How the two integer fields of a successfully Normalized Row relate to
the Raw Row: defaulted to 0 when absent, parsed when present. -/
theorem normalizeLine_int_fields (r : Dict Str) (d : Dict Value)
    (h : normalizeLine r = Except.ok d) :
    ((dget r fsFreqK = none ∧ dget d fsFreqK = some (Value.int 0)) ∨
     (∃ s n, dget r fsFreqK = some s ∧ parsePyInt s = some n ∧
       dget d fsFreqK = some (Value.int n))) ∧
    ((dget r fsPassnoK = none ∧ dget d fsPassnoK = some (Value.int 0)) ∨
     (∃ s n, dget r fsPassnoK = some s ∧ parsePyInt s = some n ∧
       dget d fsPassnoK = some (Value.int n))) := by
  obtain ⟨d1, d2, h1, h2, h3⟩ := normalizeLine_ok_inv r d h
  obtain ⟨s2, hs2, hd⟩ := mntopsStep_ok_inv d2 d h3
  have hdfreq : dget d fsFreqK = dget d2 fsFreqK := by
    rw [hd]; exact dget_dset_ne _ _ (by decide)
  have hdpass : dget d fsPassnoK = dget d2 fsPassnoK := by
    rw [hd]; exact dget_dset_ne _ _ (by decide)
  have hd1pass : dget d1 fsPassnoK = (dget r fsPassnoK).map Value.str := by
    rcases intStep_ok_inv (strDict r) d1 fsFreqK h1 with ⟨_, hD1⟩ | ⟨s1, n1, _, _, hD1⟩ <;>
      rw [hD1, dget_dset_ne _ _ key_ne_freq_passno, dget_strDict]
  constructor
  · have hfreq2 : dget d2 fsFreqK = dget d1 fsFreqK := by
      rcases intStep_ok_inv d1 d2 fsPassnoK h2 with ⟨_, hD⟩ | ⟨s, n, _, _, hD⟩ <;>
        rw [hD, dget_dset_ne _ _ (by decide : fsPassnoK ≠ fsFreqK)]
    rcases intStep_ok_inv (strDict r) d1 fsFreqK h1 with ⟨hn1, hD1⟩ | ⟨s1, n1, hsome1, hp1, hD1⟩
    · refine Or.inl ⟨(dget_strDict_none r fsFreqK).mp hn1, ?_⟩
      rw [hdfreq, hfreq2, hD1]
      exact dget_dset_self _ _ _
    · refine Or.inr ⟨s1, n1, (dget_strDict_str r fsFreqK s1).mp hsome1, hp1, ?_⟩
      rw [hdfreq, hfreq2, hD1]
      exact dget_dset_self _ _ _
  · rcases intStep_ok_inv d1 d2 fsPassnoK h2 with ⟨hn, hD⟩ | ⟨s, n, hsome, hpn, hD⟩
    · rw [hd1pass] at hn
      refine Or.inl ⟨?_, ?_⟩
      · cases hr : dget r fsPassnoK
        · rfl
        · rw [hr] at hn; simp at hn
      · rw [hdpass, hD]
        exact dget_dset_self _ _ _
    · rw [hd1pass] at hsome
      cases hr : dget r fsPassnoK with
      | none => rw [hr] at hsome; simp at hsome
      | some s0 =>
        rw [hr] at hsome
        simp at hsome
        subst hsome
        exact Or.inr ⟨s0, n, rfl, hpn, by rw [hdpass, hD]; exact dget_dset_self _ _ _⟩
/-- C3: for every Raw Row that normalizes successfully, `fs_freq` and
`fs_passno` are 0 when absent from the Raw Row and base-10 parsed when
present; and a data line too short to reach a trailing integer column's
offset yields a Raw Row without that column. -/
theorem claim_C3 :
    (∀ (r : Dict Str) (d : Dict Value), normalizeLine r = Except.ok d →
      (dget r fsFreqK = none → dget d fsFreqK = some (Value.int 0)) ∧
      (∀ s, dget r fsFreqK = some s →
        ∃ n, parsePyInt s = some n ∧ dget d fsFreqK = some (Value.int n)) ∧
      (dget r fsPassnoK = none → dget d fsPassnoK = some (Value.int 0)) ∧
      (∀ s, dget r fsPassnoK = some s →
        ∃ n, parsePyInt s = some n ∧ dget d fsPassnoK = some (Value.int n))) ∧
    (∀ line : Str, line.length ≤ 86 → dget (parseRow fsCols line) fsFreqK = none) ∧
    (∀ line : Str, line.length ≤ 94 → dget (parseRow fsCols line) fsPassnoK = none) := by
  refine ⟨?_, dget_parseRow_freq_none, dget_parseRow_passno_none⟩
  intro r d h
  obtain ⟨hfreq, hpass⟩ := normalizeLine_int_fields r d h
  refine ⟨?_, ?_, ?_, ?_⟩
  · intro hn
    rcases hfreq with ⟨_, hv⟩ | ⟨s, n, hs, _, _⟩
    · exact hv
    · rw [hn] at hs; cases hs
  · intro s hs
    rcases hfreq with ⟨hn, _⟩ | ⟨s0, n, hs0, hp0, hv0⟩
    · rw [hs] at hn; cases hn
    · rw [hs] at hs0
      obtain rfl : s0 = s := (Option.some.inj hs0).symm
      exact ⟨n, hp0, hv0⟩
  · intro hn
    rcases hpass with ⟨_, hv⟩ | ⟨s, n, hs, _, _⟩
    · exact hv
    · rw [hn] at hs; cases hs
  · intro s hs
    rcases hpass with ⟨hn, _⟩ | ⟨s0, n, hs0, hp0, hv0⟩
    · rw [hs] at hn; cases hn
    · rw [hs] at hs0
      obtain rfl : s0 = s := (Option.some.inj hs0).symm
      exact ⟨n, hp0, hv0⟩
/-- C3, witness: the theorem applied to a Raw Row without integer columns
(both default to 0), to one with `fs_freq = "2"` (parsed to 2), and to the
81-character line (Raw Row misses `fs_freq`). -/
theorem claim_C3_witness :
    dget dFreqAbsent fsFreqK = some (Value.int 0) ∧
    dget dFreqAbsent fsPassnoK = some (Value.int 0) ∧
    dget dFreqPresent fsFreqK = some (Value.int 2) ∧
    dget (parseRow fsCols lineMid) fsFreqK = none := by
  have h1 : normalizeLine rFreqAbsent = Except.ok dFreqAbsent := by decide
  have h2 : normalizeLine rFreqPresent = Except.ok dFreqPresent := by decide
  have c1 := (claim_C3.1 rFreqAbsent dFreqAbsent h1).1 (by decide)
  have c2 := (claim_C3.1 rFreqAbsent dFreqAbsent h1).2.2.1 (by decide)
  obtain ⟨n, hpn, hdn⟩ :=
    (claim_C3.1 rFreqPresent dFreqPresent h2).2.1 ("2".toList) (by decide)
  have hn2 : (2 : Int) = n :=
    Option.some.inj ((by decide : parsePyInt ("2".toList) = some 2).symm.trans hpn)
  rw [← hn2] at hdn
  exact ⟨c1, c2, hdn, claim_C3.2.1 lineMid (by decide)⟩
/-! ### Claim C4 -/
/-- C4, counterexample: an input containing a data line whose declared
integer column `fs_freq` holds the non-numeric value "x" — yet the whole
parse fails with the `KeyError` of the earlier too-short line, not with a
`MalformedField` condition, refuting the claim as stated. -/
theorem claim_C4_counterexample :
    dget (parseRow fsCols lineBadFreq) fsFreqK = some ("x".toList) ∧
    parsePyInt ("x".toList) = none ∧
    parse_content [lineShort, lineBadFreq] = Except.error ParseErr.keyError := by decide
/-- C4 (amended): a Raw Row whose declared-integer column holds a
non-numeric value fails its normalization with `MalformedField` (for
`fs_passno`, provided `fs_freq` did not already fail), and any input one
of whose Raw Rows fails normalization makes the whole parse call fail
with a typed error — no partial or best-effort row is returned.  The
surfaced error is `MalformedField` itself when the offending line is the
first failing one. -/
theorem claim_C4 :
    (∀ (r : Dict Str) (s : Str), dget r fsFreqK = some s → parsePyInt s = none →
      normalizeLine r = Except.error ParseErr.malformedField) ∧
    (∀ (r : Dict Str) (s : Str),
      (dget r fsFreqK = none ∨ ∃ s0 n0, dget r fsFreqK = some s0 ∧ parsePyInt s0 = some n0) →
      dget r fsPassnoK = some s → parsePyInt s = none →
      normalizeLine r = Except.error ParseErr.malformedField) ∧
    (∀ (content : List Str) (r : Dict Str) (e : ParseErr),
      r ∈ (get_active_lines content).map (parseRow fsCols) →
      normalizeLine r = Except.error e →
      ∃ e', parse_content content = Except.error e') := by
  refine ⟨?_, ?_, ?_⟩
  · intro r s hs hp
    have hbad := intStep_bad (strDict r) fsFreqK s ((dget_strDict_str r fsFreqK s).mpr hs) hp
    simp [normalizeLine, hbad]
  · intro r s hfreq hs hp
    have hd1 : ∃ d1, intStep (strDict r) fsFreqK = Except.ok d1 ∧
        dget d1 fsPassnoK = (dget r fsPassnoK).map Value.str := by
      rcases hfreq with hn | ⟨s0, n0, hs0, hp0⟩
      · exact ⟨_, intStep_absent _ _ ((dget_strDict_none r fsFreqK).mpr hn),
          by rw [dget_dset_ne _ _ key_ne_freq_passno, dget_strDict]⟩
      · exact ⟨_, intStep_present _ _ s0 n0 ((dget_strDict_str r fsFreqK s0).mpr hs0) hp0,
          by rw [dget_dset_ne _ _ key_ne_freq_passno, dget_strDict]⟩
    obtain ⟨d1, h1, hpassget⟩ := hd1
    have hsome : dget d1 fsPassnoK = some (Value.str s) := by rw [hpassget, hs]; rfl
    have hbad := intStep_bad d1 fsPassnoK s hsome hp
    simp [normalizeLine, h1, hbad]
  · intro content r e hmem hnorm
    obtain ⟨e', he'⟩ := mapExcept_error_of_mem normalizeLine _ r e hmem hnorm
    refine ⟨e', ?_⟩
    simp [parse_content, parse_table_fstab, he']
/-- C4, witness: the amended theorem applied to a Raw Row with non-numeric
`fs_freq` and to a one-line input whose only failure is that column. -/
theorem claim_C4_witness :
    normalizeLine rBadFreq = Except.error ParseErr.malformedField ∧
    parse_content [lineBadFreq] = Except.error ParseErr.malformedField := by
  refine ⟨claim_C4.1 rBadFreq ("x".toList) (by decide) (by decide), ?_⟩
  obtain ⟨e', he'⟩ := claim_C4.2.2 [lineBadFreq] (parseRow fsCols lineBadFreq)
    ParseErr.malformedField (by decide) (by decide)
  have he : e' = ParseErr.malformedField :=
    Except.error.inj
      (he'.symm.trans (by decide : parse_content [lineBadFreq] =
        Except.error ParseErr.malformedField))
  rw [he] at he'
  exact he'
/-! ### Claim C2 -/
/-- C2: for an already-filtered input that parses successfully, the row
count — `__len__` and the lengths of `rows` and `data` — equals the number
of data lines supplied. -/
theorem claim_C2 (content : List Str) (t : FSTab)
    (hfiltered : get_active_lines content = content)
    (h : parse_content content = Except.ok t) :
    FSTab.len t = content.length ∧ t.rows.length = content.length ∧
    t.data.length = content.length := by
  obtain ⟨normed, hmap, hdata, hrows, _⟩ := parse_content_ok_inv content t h
  rw [hfiltered] at hmap
  have hlen : normed.length = content.length := by
    have hl := mapExcept_ok_length normalizeLine _ _ hmap
    simpa using hl
  have h1 : t.data.length = content.length := by
    rw [hdata]
    simpa using hlen
  have h2 : t.rows.length = content.length := by
    rw [hrows]
    simpa using h1
  exact ⟨h2, h2, h1⟩
/-- C2, witness: the theorem applied to a two-line input. -/
theorem claim_C2_witness :
    FSTab.len tPair = 2 ∧ tPair.rows.length = 2 ∧ tPair.data.length = 2 := by
  have hp : parse_content contentPair = Except.ok tPair := by decide
  exact claim_C2 contentPair tPair (by decide) hp
/-! ### Claim C6 -/
theorem dget_foldl_mounted (rows : List FSTabEntry) (m : Dict FSTabEntry) (k : Str) :
    dget (rows.foldl (fun m e => dset m e.fs_file e) m) k =
      match lastMatch k rows with
      | some e => some e
      | none => dget m k := by
  induction rows generalizing m with
  | nil => simp [lastMatch]
  | cons e es ih =>
    simp only [List.foldl_cons, lastMatch]
    rw [ih]
    cases hl : lastMatch k es with
    | some x => rfl
    | none =>
      by_cases he : e.fs_file = k
      · rw [if_pos he, ← he]
        exact dget_dset_self _ _ _
      · rw [if_neg he]
        exact dget_dset_ne _ _ he
/-- C6: on a successfully parsed table, `mounted_on` maps a mount point to
the row supplied last among the rows carrying that mount point. -/
theorem claim_C6 (content : List Str) (t : FSTab) (k : Str) (e : FSTabEntry)
    (hok : parse_content content = Except.ok t)
    (hlast : lastMatch k t.rows = some e) :
    dget t.mounted_on k = some e := by
  obtain ⟨_, _, _, _, hmo⟩ := parse_content_ok_inv content t hok
  rw [hmo, mkMountedOn, dget_foldl_mounted, hlast]
/-- C6, witness: two rows share mount point `/data`; the lookup returns the
row supplied last (the second row, not the first). -/
theorem claim_C6_witness :
    dget tDup.mounted_on ("/data".toList) = some eDup ∧
    tDup.rows.get? 1 = some eDup ∧ tDup.rows.get? 0 ≠ some eDup := by
  have hp : parse_content [lineFull2, lineDup] = Except.ok tDup := by decide
  have hlast : lastMatch ("/data".toList) tDup.rows = some eDup := by decide
  exact ⟨claim_C6 [lineFull2, lineDup] tDup ("/data".toList) eDup hp hlast,
    by decide, by decide⟩
/-! ### Claim C7 -/
/-- C7: the parse is atomic — for every input it either returns a fully
built table whose `data`, `rows` and `mounted_on` are mutually consistent
(`rows` is `data` converted to entry objects, `mounted_on` is the index of
`rows`, and the lengths agree), or it fails with a typed error and no
table is exposed. -/
theorem claim_C7 (content : List Str) :
    (∃ t, parse_content content = Except.ok t ∧
      t.rows = t.data.map FSTabEntry.ofDict ∧
      t.mounted_on = mkMountedOn t.rows ∧
      FSTab.len t = t.rows.length ∧ t.data.length = t.rows.length) ∨
    (∃ e, parse_content content = Except.error e) := by
  cases hp : parse_content content with
  | error e => exact Or.inr ⟨e, rfl⟩
  | ok t =>
    obtain ⟨normed, hmap, hdata, hrows, hmo⟩ := parse_content_ok_inv content t hp
    refine Or.inl ⟨t, rfl, hrows, hmo, rfl, ?_⟩
    rw [hrows]
    simp
/-! ### Options-column chain lemmas -/
theorem normalizeLine_ok_mntops (r : Dict Str) (nd : Dict Value)
    (h : normalizeLine r = Except.ok nd) :
    ∃ s, dget nd fsMntopsK = some (Value.opts (optlist_to_dict s)) := by
  obtain ⟨d1, d2, _, _, h3⟩ := normalizeLine_ok_inv r nd h
  obtain ⟨s, _, hd⟩ := mntopsStep_ok_inv d2 nd h3
  refine ⟨s, ?_⟩
  rw [hd]
  exact dget_dset_self _ _ _
theorem augmentLine_mntops (d : Dict Value) (od : OptDict)
    (h : dget d fsMntopsK = some (Value.opts od)) :
    augmentLine d = dset d fsMntopsK (Value.opts (mountOptsInit od)) := by
  simp [augmentLine, h]
theorem mntopsData_ofDict (d : Dict Value) (od : OptDict)
    (h : dget d fsMntopsK = some (Value.opts od)) :
    (FSTabEntry.ofDict d).mntopsData = some od := by
  rw [FSTabEntry.mntopsData, FSTabEntry.ofDict]
  rw [dget_map_entry
    (fun k v => if k = fsMntopsK then
      (match v with | Value.opts od => Value.mopts ⟨od⟩ | v => v) else v) d fsMntopsK]
  rw [h]
  simp
theorem mem_zip_map {α β : Type} (l : List α) (f : α → β) (p : α × β)
    (h : p ∈ l.zip (l.map f)) : p.1 ∈ l ∧ p.2 = f p.1 := by
  induction l with
  | nil => simp at h
  | cons a as ih =>
    simp only [List.map_cons, List.zip_cons_cons, List.mem_cons] at h
    rcases h with h | h
    · rw [h]
      exact ⟨by simp, rfl⟩
    · obtain ⟨h1, h2⟩ := ih h
      exact ⟨by simp [h1], h2⟩
/-- The augmented options dictionary of any successfully parsed row: the
decoder's output for some source string, with the well-known defaults
added. -/
theorem parse_row_mntops (content : List Str) (t : FSTab) (nd : Dict Value)
    (hok : parse_content content = Except.ok t) (hnd : nd ∈ t.data) :
    ∃ s, dget nd fsMntopsK =
      some (Value.opts (mountOptsInit (optlist_to_dict s))) := by
  obtain ⟨normed, hmap, hdata, _, _⟩ := parse_content_ok_inv content t hok
  rw [hdata] at hnd
  obtain ⟨nd0, hnd0, rfl⟩ := List.mem_map.mp hnd
  obtain ⟨r, _, hnorm⟩ := mapExcept_ok_mem normalizeLine _ _ hmap nd0 hnd0
  obtain ⟨s, hs⟩ := normalizeLine_ok_mntops r nd0 hnorm
  refine ⟨s, ?_⟩
  rw [augmentLine_mntops nd0 _ hs]
  exact dget_dset_self _ _ _
/-! ### Claim C5 -/
/-- C5, counterexample: with options string `rw=1`, the well-known flag
`rw` did NOT appear as a bare token, yet the row's Option Map binds it to
the string "1" — not to boolean `false` (nor `true`) — refuting "as a
boolean entry: true if the flag appeared as a bare token ... and false
otherwise". -/
theorem claim_C5_counterexample :
    parse_content [lineRwEq] = Except.ok tRwEq ∧
    dget mRwEq ("rw".toList) = some (OptVal.str ("1".toList)) ∧
    dget mRwEq ("rw".toList) ≠ some (OptVal.flag false) ∧
    dget mRwEq ("rw".toList) ≠ some (OptVal.flag true) := by decide
/-- C5 (amended): every row of a successfully parsed table carries an
Option Map obtained from the decoded options string with the well-known
defaults merged in: every well-known flag is present — bound to the
decoder's value for it when the decoder produced one (boolean `true` for a
bare token, the literal string for a `key=value` token), and to boolean
`false` when the flag was absent from the options string. -/
theorem claim_C5 (content : List Str) (t : FSTab) (e : FSTabEntry)
    (hok : parse_content content = Except.ok t) (he : e ∈ t.rows) :
    ∃ s, e.mntopsData = some (mountOptsInit (optlist_to_dict s)) ∧
      ∀ k, k ∈ wellKnownFlags →
        dget (mountOptsInit (optlist_to_dict s)) k =
          some ((dget (optlist_to_dict s) k).getD (OptVal.flag false)) := by
  obtain ⟨normed, hmap, hdata, hrows, _⟩ := parse_content_ok_inv content t hok
  rw [hrows] at he
  obtain ⟨nd, hnd, rfl⟩ := List.mem_map.mp he
  obtain ⟨s, hs⟩ := parse_row_mntops content t nd hok (by rw [hdata] at hnd ⊢; exact hnd)
  refine ⟨s, mntopsData_ofDict nd _ hs, ?_⟩
  intro k hk
  exact dget_mountOptsInit_flag _ k hk
/-- C5, witness: the amended theorem applied to the row parsed from
`lineFull1`; its Option Map exists and contains the well-known flags. -/
theorem claim_C5_witness :
    eFull1.mntopsData.isSome = true ∧
    (dget (eFull1.mntopsData.getD []) ("rw".toList)).isSome = true ∧
    (dget (eFull1.mntopsData.getD []) ("noquota".toList)).isSome = true := by
  obtain ⟨s, hm, hflags⟩ := claim_C5 [lineFull1] tFull1 eFull1 (by decide) (by decide)
  refine ⟨by rw [hm]; rfl, ?_, ?_⟩
  · rw [hm]
    simp only [Option.getD_some]
    rw [hflags ("rw".toList) (by decide)]
    rfl
  · rw [hm]
    simp only [Option.getD_some]
    rw [hflags ("noquota".toList) (by decide)]
    rfl
/-! ### Claim C10 -/
/-- C10: after a successful parse, each entry of `data` and its
corresponding row hold the SAME options dictionary — the one
`MountOpts.__init__` augmented in place with the ten well-known flags —
so the two views cannot disagree on option values. -/
theorem claim_C10 (content : List Str) (t : FSTab) (p : Dict Value × FSTabEntry)
    (hok : parse_content content = Except.ok t) (hp : p ∈ t.data.zip t.rows) :
    ∃ od, dget p.1 fsMntopsK = some (Value.opts od) ∧
      p.2.mntopsData = some od ∧
      ∀ k, k ∈ wellKnownFlags → (dget od k).isSome = true := by
  obtain ⟨normed, hmap, hdata, hrows, _⟩ := parse_content_ok_inv content t hok
  have hz : p ∈ t.data.zip (t.data.map FSTabEntry.ofDict) := by
    rw [← hrows]
    exact hp
  obtain ⟨h1, h2⟩ := mem_zip_map t.data FSTabEntry.ofDict p hz
  obtain ⟨s, hs⟩ := parse_row_mntops content t p.1 hok h1
  refine ⟨mountOptsInit (optlist_to_dict s), hs, ?_, ?_⟩
  · rw [h2]
    exact mntopsData_ofDict p.1 _ hs
  · intro k hk
    rw [dget_mountOptsInit_flag _ k hk]
    rfl
/-- C10, witness: on the concrete one-line table, the data view's
`fs_mntops` dictionary and the row view's `MountOpts` data agree and
contain the well-known flags. -/
theorem claim_C10_witness :
    (dget pFull1.1 fsMntopsK).isSome = true ∧
    pFull1.2.mntopsData.isSome = true ∧
    (match dget pFull1.1 fsMntopsK with
     | some (Value.opts od) => pFull1.2.mntopsData = some od
     | _ => False) := by
  obtain ⟨od, h1, h2, h3⟩ := claim_C10 [lineFull1] tFull1 pFull1 (by decide) (by decide)
  refine ⟨by rw [h1]; rfl, by rw [h2]; rfl, ?_⟩
  rw [h1, h2]
/-! ### Split and join lemmas -/
theorem splitOnChar_ne_nil (sep : Char) (s : Str) : splitOnChar sep s ≠ [] := by
  cases s with
  | nil => simp [splitOnChar]
  | cons c rest =>
    simp only [splitOnChar]
    cases splitOnChar sep rest with
    | nil => simp
    | cons t ts =>
      by_cases h : c = sep
      · simp [h]
      · simp [h]
theorem splitOnChar_not_mem (sep : Char) (t : Str) (h : ¬ sep ∈ t) :
    splitOnChar sep t = [t] := by
  induction t with
  | nil => rfl
  | cons c rest ih =>
    have hc : ¬ (c = sep) := fun he => h (by rw [he]; simp)
    have hrest : ¬ sep ∈ rest := fun he => h (by simp [he])
    simp only [splitOnChar, ih hrest]
    rw [if_neg hc]
theorem splitOnChar_append (sep : Char) (t rest : Str) (h : ¬ sep ∈ t) :
    splitOnChar sep (t ++ sep :: rest) = t :: splitOnChar sep rest := by
  induction t with
  | nil =>
    simp only [List.nil_append, splitOnChar]
    cases hr : splitOnChar sep rest with
    | nil => exact absurd hr (splitOnChar_ne_nil sep rest)
    | cons t' ts' => simp
  | cons c t' ih =>
    have hc : ¬ (c = sep) := fun he => h (by rw [he]; simp)
    have ht' : ¬ sep ∈ t' := fun he => h (by simp [he])
    simp only [List.cons_append, splitOnChar, List.append_eq]
    rw [ih ht']
    simp [hc]
theorem splitOnChar_joinSep (sep : Char) :
    ∀ ts : List Str, (∀ t ∈ ts, ¬ sep ∈ t) → ts ≠ [] →
      splitOnChar sep (joinSep sep ts) = ts
  | [], _, hne => absurd rfl hne
  | [t], h, _ => by
    simp only [joinSep]
    exact splitOnChar_not_mem sep t (h t (by simp))
  | t :: t2 :: ts, h, _ => by
    simp only [joinSep]
    rw [splitOnChar_append sep t _ (h t (by simp))]
    rw [splitOnChar_joinSep sep (t2 :: ts) (fun x hx => h x (by simp [hx])) (by simp)]
/-! ### Trim and break lemmas -/
theorem dropWhile_id (p : Char → Bool) (s : Str) (h : ∀ c ∈ s, p c = false) :
    s.dropWhile p = s := by
  cases s with
  | nil => rfl
  | cons a l => simp [List.dropWhile_cons, h a (by simp)]
theorem trim_id (s : Str) (h : ∀ c ∈ s, c.isWhitespace = false) : trim s = s := by
  rw [trim, dropWhile_id _ s h,
    dropWhile_id _ s.reverse (fun c hc => h c (List.mem_reverse.mp hc))]
  exact List.reverse_reverse s
theorem breakOn_not_mem (c : Char) (t : Str) (h : ¬ c ∈ t) :
    breakOnChar c t = (t, none) := by
  induction t with
  | nil => rfl
  | cons a rest ih =>
    have ha : ¬ (a = c) := fun he => h (by rw [← he]; simp)
    have hrest : ¬ c ∈ rest := fun he => h (by simp [he])
    simp [breakOnChar, ha, ih hrest]
theorem breakOn_first (c : Char) (k v : Str) (h : ¬ c ∈ k) :
    breakOnChar c (k ++ c :: v) = (k, some v) := by
  induction k with
  | nil => simp [breakOnChar]
  | cons a k' ih =>
    have ha : ¬ (a = c) := fun he => h (by rw [← he]; simp)
    have hk' : ¬ c ∈ k' := fun he => h (by simp [he])
    simp [breakOnChar, ha, ih hk']
/-! ### Dictionary append lemmas -/
theorem dget_append {α : Type} (a b : Dict α) (k : Str) :
    dget (a ++ b) k =
      match dget a k with
      | some v => some v
      | none => dget b k := by
  induction a with
  | nil => simp [dget]
  | cons p rest ih =>
    obtain ⟨k', v⟩ := p
    by_cases h : k' = k
    · simp [dget, h]
    · simp [dget, h, ih]
theorem dset_append_absent {α : Type} (d : Dict α) (k : Str) (v : α)
    (h : dget d k = none) : dset d k v = d ++ [(k, v)] := by
  induction d with
  | nil => rfl
  | cons p rest ih =>
    obtain ⟨k', v'⟩ := p
    by_cases hk : k' = k
    · rw [dget_cons_eq v' rest hk] at h
      cases h
    · rw [dget_cons_ne v' rest hk] at h
      simp [dset, hk, ih h]
theorem foldl_dset_entries {α : Type} (m : Dict α) (acc : Dict α)
    (hdisj : ∀ p ∈ m, dget acc p.1 = none)
    (hnodup : (m.map Prod.fst).Nodup) :
    m.foldl (fun d p => dset d p.1 p.2) acc = acc ++ m := by
  induction m generalizing acc with
  | nil => simp
  | cons p m' ih =>
    simp only [List.foldl_cons]
    rw [dset_append_absent acc p.1 p.2 (hdisj p (by simp))]
    have hdisj' : ∀ q ∈ m', dget (acc ++ [(p.1, p.2)]) q.1 = none := by
      intro q hq
      rw [dget_append, hdisj q (by simp [hq])]
      have hne : ¬ (p.1 = q.1) := by
        intro he
        have hmem : p.1 ∈ m'.map Prod.fst := by
          rw [he]
          exact List.mem_map_of_mem Prod.fst hq
        exact (List.nodup_cons.mp hnodup).1 hmem
      simp [dget, hne]
    rw [ih (acc ++ [(p.1, p.2)]) hdisj' (List.nodup_cons.mp hnodup).2]
    simp
/-! ### Clean entries and the decode-encode round trip -/
theorem clean_key_char_facts (p : Str × OptVal) (h : cleanEntry p = true) :
    p.1 ≠ [] ∧ ∀ c ∈ p.1, c.isWhitespace = false ∧ ¬ (c = ',') ∧ ¬ (c = '=') := by
  simp only [cleanEntry, Bool.and_eq_true, List.all_eq_true] at h
  obtain ⟨⟨hne, hall⟩, _⟩ := h
  refine ⟨by simpa using hne, ?_⟩
  intro c hc
  have := hall c hc
  simp only [Bool.and_eq_true, bne_iff_ne, Bool.not_eq_true'] at this
  exact ⟨this.1.1, this.1.2, this.2⟩
theorem clean_str_facts (k v : Str) (h : cleanEntry (k, OptVal.str v) = true) :
    ∀ c ∈ v, c.isWhitespace = false ∧ ¬ (c = ',') := by
  simp only [cleanEntry, Bool.and_eq_true, List.all_eq_true] at h
  intro c hc
  have := h.2 c hc
  simp only [Bool.and_eq_true, bne_iff_ne, Bool.not_eq_true'] at this
  exact ⟨this.1, this.2⟩
theorem clean_flag_true (k : Str) (b : Bool) (h : cleanEntry (k, OptVal.flag b) = true) :
    b = true := by
  simp only [cleanEntry, Bool.and_eq_true] at h
  exact h.2
theorem token_no_comma (p : Str × OptVal) (h : cleanEntry p = true) :
    ¬ ',' ∈ encodeEntry p := by
  obtain ⟨k, val⟩ := p
  obtain ⟨_, hkey⟩ := clean_key_char_facts (k, val) h
  cases val with
  | flag b =>
    intro hc
    exact (hkey ',' hc).2.1 rfl
  | str v =>
    intro hc
    simp only [encodeEntry, List.mem_append, List.mem_cons] at hc
    rcases hc with hc | hc | hc
    · exact (hkey ',' hc).2.1 rfl
    · cases hc
    · exact (clean_str_facts k v h ',' hc).2 rfl
theorem token_ne_nil (p : Str × OptVal) (h : cleanEntry p = true) :
    encodeEntry p ≠ [] := by
  obtain ⟨k, val⟩ := p
  obtain ⟨hne, _⟩ := clean_key_char_facts (k, val) h
  cases val with
  | flag b => exact hne
  | str v =>
    simp only [encodeEntry]
    intro hc
    rw [List.append_eq_nil] at hc
    cases hc.2
theorem token_trim (p : Str × OptVal) (h : cleanEntry p = true) :
    trim (encodeEntry p) = encodeEntry p := by
  obtain ⟨k, val⟩ := p
  obtain ⟨_, hkey⟩ := clean_key_char_facts (k, val) h
  cases val with
  | flag b => exact trim_id k (fun c hc => (hkey c hc).1)
  | str v =>
    apply trim_id
    intro c hc
    simp only [encodeEntry, List.mem_append, List.mem_cons] at hc
    rcases hc with hc | hc | hc
    · exact (hkey c hc).1
    · rw [hc]; rfl
    · exact (clean_str_facts k v h c hc).1
theorem optTokenStep_encode (d : OptDict) (p : Str × OptVal) (h : cleanEntry p = true) :
    optTokenStep d (encodeEntry p) = dset d p.1 p.2 := by
  obtain ⟨k, val⟩ := p
  obtain ⟨_, hkey⟩ := clean_key_char_facts (k, val) h
  have hkeq : ¬ '=' ∈ k := fun hc => (hkey '=' hc).2.2 rfl
  cases val with
  | flag b =>
    rw [optTokenStep, token_trim (k, OptVal.flag b) h]
    simp only [encodeEntry]
    rw [breakOn_not_mem '=' k hkeq, clean_flag_true k b h]
  | str v =>
    rw [optTokenStep, token_trim (k, OptVal.str v) h]
    simp only [encodeEntry]
    rw [breakOn_first '=' k v hkeq]
theorem foldl_optTokenStep (m : OptDict) (acc : OptDict)
    (h : ∀ p ∈ m, cleanEntry p = true) :
    (m.map encodeEntry).foldl optTokenStep acc =
      m.foldl (fun d p => dset d p.1 p.2) acc := by
  induction m generalizing acc with
  | nil => rfl
  | cons p m' ih =>
    simp only [List.map_cons, List.foldl_cons]
    rw [optTokenStep_encode acc p (h p (by simp))]
    exact ih _ (fun q hq => h q (by simp [hq]))
theorem joinSep_map_ne_nil (p : Str × OptVal) (m : List (Str × OptVal))
    (h : cleanEntry p = true) :
    joinSep ',' ((p :: m).map encodeEntry) ≠ [] := by
  cases m with
  | nil =>
    simp only [List.map_cons, List.map_nil, joinSep]
    exact token_ne_nil p h
  | cons q m' =>
    simp only [List.map_cons, joinSep]
    intro hc
    rw [List.append_eq_nil] at hc
    cases hc.2
/-! ### Claim C8 -/
/-- C8, counterexample: the Option Map binding the single key `a,b` to
boolean true has no duplicate keys, yet decoding its encoding does not
return it — the embedded comma splits the key in two, and the decoded
dictionary does not even bind the key `a,b`. -/
theorem claim_C8_counterexample :
    optlist_to_dict (encodeOpts [("a,b".toList, OptVal.flag true)]) ≠
      [("a,b".toList, OptVal.flag true)] ∧
    dget (optlist_to_dict (encodeOpts [("a,b".toList, OptVal.flag true)]))
      ("a,b".toList) = none := by decide
/-- C8 (amended): `decode (encode m) = m` holds for maps without duplicate
keys whose entries are clean: nonempty keys free of whitespace, `,` and
`=`, boolean entries `true`, and string values free of whitespace and `,`. -/
theorem claim_C8 (m : OptDict) (hclean : ∀ p ∈ m, cleanEntry p = true)
    (hnodup : (m.map Prod.fst).Nodup) :
    optlist_to_dict (encodeOpts m) = m := by
  cases m with
  | nil => rfl
  | cons p m' =>
    have htoks : ∀ tok ∈ (p :: m').map encodeEntry, ¬ ',' ∈ tok := by
      intro tok htok
      obtain ⟨q, hq, rfl⟩ := List.mem_map.mp htok
      exact token_no_comma q (hclean q hq)
    have hne : encodeOpts (p :: m') ≠ [] :=
      joinSep_map_ne_nil p m' (hclean p (by simp))
    rw [optlist_to_dict, if_neg hne, encodeOpts,
      splitOnChar_joinSep ',' ((p :: m').map encodeEntry) htoks (by simp),
      foldl_optTokenStep (p :: m') [] hclean,
      foldl_dset_entries (p :: m') [] (by intro q hq; rfl) hnodup]
    rfl
/-- C8, witness: the amended round trip on a two-entry map with a boolean
flag and a `key=value` entry. -/
theorem claim_C8_witness :
    optlist_to_dict (encodeOpts
      [("rw".toList, OptVal.flag true), ("gid".toList, OptVal.str ("5".toList))]) =
      [("rw".toList, OptVal.flag true), ("gid".toList, OptVal.str ("5".toList))] :=
  claim_C8 _ (by decide) (by decide)
/-! ### Claim C9 -/
/-- C9: the per-token rule of the decoder — a trimmed, comma-free, nonempty
token without `=` maps to boolean true; a token of the form `k ++ "=" ++ v`
with `=`-free `k` (i.e. split at the FIRST `=`) maps `k` to the literal
string `v`, which may itself contain `=`. -/
theorem claim_C9 (t : Str) (hne : t ≠ []) (htrim : trim t = t) (hc : ¬ ',' ∈ t) :
    (¬ '=' ∈ t → optlist_to_dict t = [(t, OptVal.flag true)]) ∧
    (∀ k v, t = k ++ '=' :: v → ¬ '=' ∈ k →
      optlist_to_dict t = [(k, OptVal.str v)]) := by
  have hsplit : splitOnChar ',' t = [t] := splitOnChar_not_mem ',' t hc
  constructor
  · intro heq
    rw [optlist_to_dict, if_neg hne, hsplit]
    simp only [List.foldl_cons, List.foldl_nil]
    rw [optTokenStep, htrim, breakOn_not_mem '=' t heq]
    rfl
  · intro k v heq hk
    rw [optlist_to_dict, if_neg hne, hsplit]
    simp only [List.foldl_cons, List.foldl_nil]
    rw [optTokenStep, htrim, heq, breakOn_first '=' k v hk]
    rfl
/-- C9, witness: the per-token rule applied to the bare token `rw` and to
the token `gid=5`; also a value containing `=` is kept whole
(`opt=a=b` maps `opt` to `a=b`). -/
theorem claim_C9_witness :
    optlist_to_dict ("rw".toList) = [("rw".toList, OptVal.flag true)] ∧
    optlist_to_dict ("gid=5".toList) = [("gid".toList, OptVal.str ("5".toList))] ∧
    optlist_to_dict ("opt=a=b".toList) = [("opt".toList, OptVal.str ("a=b".toList))] := by
  refine ⟨(claim_C9 ("rw".toList) (by decide) (by decide) (by decide)).1 (by decide),
    (claim_C9 ("gid=5".toList) (by decide) (by decide) (by decide)).2
      ("gid".toList) ("5".toList) (by decide) (by decide),
    (claim_C9 ("opt=a=b".toList) (by decide) (by decide) (by decide)).2
      ("opt".toList) ("a=b".toList) (by decide) (by decide)⟩
end Fstab
